import Mathlib

/-!
Verification of the HCL loop-transformation engine
(`lib/Transforms/LoopTransformations.cpp`, `lib/Transforms/MemRefDCE.cpp`)
against its natural-language specification.

Each section shallowly embeds the arithmetic and list-manipulation core of
one schedule primitive, translated directly from the C++ source, and proves
(or refutes) the corresponding specification claim.  The file is split into
a definitions part (the embedding) followed by a theorems part.
-/

namespace HCL

/-! # Definitions

## Loop coalescing (`coalesceLoops`, called from `runFusing`)

`coalesceLoops` (LoopTransformations.cpp, lines 594-707) requires every loop
of the band to be normalized (step 1, constant lower bound 0, constant upper
bound).  It computes the product of the constant upper bounds with the
running multiplication `prod *= cstUb` and sets the outermost bound to that
product.  It then rebuilds the original induction variables from the merged
one, walking the band from the innermost loop outwards while maintaining a
running quotient: the innermost variable is `iv mod ub_innermost`, after
which the quotient is divided by the level's bound, each intermediate level
takes `quotient mod ub_level`, and the outermost level keeps the final
quotient without a mod.  `ubs` lists are ordered outermost first, matching
the `loops` array of the source. -/

/-- The upper bound of the coalesced loop: the source folds
`prod *= loop.getConstantUpperBound()` over the band (lines 620-629). -/
def coalescedUpperBound (ubs : List Nat) : Nat :=
  ubs.foldl (· * ·) 1

/-- The induction-variable reconstruction loop of `coalesceLoops`
(lines 641-676), expressed over the band listed innermost first: the
innermost loop takes `q mod ub`, the running quotient is then divided by
that bound, and the outermost loop receives the final quotient directly. -/
def codeIVsRev : List Nat → Nat → List Nat
  | [], _ => []
  | [_], q => [q]
  | u :: u2 :: us, q => (q % u) :: codeIVsRev (u2 :: us) (q / u)

/-- Original induction variables recovered from the fused induction
variable `t`, listed outermost first like the band itself. -/
def coalescedIVs (ubs : List Nat) (t : Nat) : List Nat :=
  (codeIVsRev ubs.reverse t).reverse

/-- Row-major linearization of an index tuple with respect to per-level trip
counts, both listed innermost first: this is the position a perfect loop
nest assigns to an iteration in execution order. -/
def linRev : List Nat → List Nat → Nat
  | u :: us, x :: xs => x + u * linRev us xs
  | _, _ => 0

/-- Linearization of an index tuple (outermost first) under trip counts
(outermost first). -/
def linearizeIdx (ubs xs : List Nat) : Nat :=
  linRev ubs.reverse xs.reverse

/-! ## Array partitioning (`runPartition`)

`runPartition` (LoopTransformations.cpp, lines 980-1074) rewrites the layout
map of an array.  It walks every dimension; a dimension is rewritten when
`target_dim == 0 || (target_dim > 0 && dim == target_dim - 1)` (line 1017),
pushing one bank-index expression onto `partitionIndices` and one physical
offset expression onto `addressIndices`; unselected dimensions get the
pass-through pair `(0, d)` when the current layout map still has `rank`
results, and otherwise copy `layout.getResult(dim)` into both components
(lines 1044-1052).  The final map is `partitionIndices ++ addressIndices`
(line 1056).  A missing factor is an error unless the kind is
`CompletePartition` (lines 986-995). -/

/-- Affine expressions produced by `runPartition`: dimension and constant
expressions combined with mod / floordiv by a constant, mirroring the
`AffineExpr` values the source builds with `getAffineDimExpr`,
`getAffineConstantExpr`, `%` and `floorDiv`. -/
inductive AExpr where
  | dim (i : Nat)
  | cst (c : Nat)
  | amod (e : AExpr) (c : Nat)
  | fdiv (e : AExpr) (c : Nat)
deriving DecidableEq, Repr

/-- Evaluation of a layout expression in an environment assigning a value to
every dimension.  Array indices are non-negative, so `%` and `/` on `Nat`
agree with MLIR's affine `mod` and `floordiv` here. -/
def AExpr.eval (env : Nat → Nat) : AExpr → Nat
  | .dim i => env i
  | .cst c => c
  | .amod e c => AExpr.eval env e % c
  | .fdiv e c => AExpr.eval env e / c

/-- Partition kinds of the `hcl.partition` operation. -/
inductive PartitionKind where
  | cyclic
  | block
  | complete
deriving DecidableEq, Repr

/-- Dimension-selection test of `runPartition`, line 1017 of the source:
`target_dim == 0 || (target_dim > 0 && dim == target_dim - 1)`. -/
def selB (targetDim d : Nat) : Bool :=
  targetDim == 0 || (0 < targetDim && d == targetDim - 1)

/-- The block size used by block partitioning, line 1031 of the source:
`(shape[dim] + factor - 1) / factor` (a ceiling division for positive
factor). -/
def blockFactor (extent f : Nat) : Nat :=
  (extent + f - 1) / f

/-- The bank-index component `runPartition` pushes onto `partitionIndices`
for dimension `d` (lines 1016-1052). -/
def bankCompOf (shape : List Nat) (kind : PartitionKind) (targetDim f : Nat)
    (prev : List AExpr) (d : Nat) : AExpr :=
  if selB targetDim d then
    match kind with
    | .cyclic => .amod (.dim d) f
    | .block => .fdiv (.dim d) (blockFactor (shape.getD d 0) f)
    | .complete => .dim d
  else if prev.length = shape.length then .cst 0
  else prev.getD d (.cst 0)

/-- The physical-offset component `runPartition` pushes onto
`addressIndices` for dimension `d` (lines 1016-1052). -/
def offsetCompOf (shape : List Nat) (kind : PartitionKind) (targetDim f : Nat)
    (prev : List AExpr) (d : Nat) : AExpr :=
  if selB targetDim d then
    match kind with
    | .cyclic => .fdiv (.dim d) f
    | .block => .amod (.dim d) (blockFactor (shape.getD d 0) f)
    | .complete => .cst 0
  else if prev.length = shape.length then .dim d
  else prev.getD d (.cst 0)

/-- The layout map `runPartition` constructs: bank components for all
dimensions followed by offset components for all dimensions
(`partitionIndices.append(addressIndices)`, line 1056).  `none` models the
reported error "Should pass in `factor' for array partition" when the factor
is absent and the kind is not complete (lines 986-995); a factor passed for
a complete partition is ignored by the source, which we mirror by feeding a
dummy factor to the complete branch. -/
def runPartitionModel (shape : List Nat) (kind : PartitionKind)
    (targetDim : Nat) (factor : Option Nat) (prev : List AExpr) :
    Option (List AExpr) :=
  match factor with
  | none =>
    if kind = .complete then
      some ((List.range shape.length).map (bankCompOf shape kind targetDim 0 prev) ++
            (List.range shape.length).map (offsetCompOf shape kind targetDim 0 prev))
    else none
  | some f =>
    some ((List.range shape.length).map (bankCompOf shape kind targetDim f prev) ++
          (List.range shape.length).map (offsetCompOf shape kind targetDim f prev))

/-! ## Sliding-window reuse buffers (`runReuseAt`)

`runReuseAt` (LoopTransformations.cpp, lines 1076-1867) analyses the loads
of the target array along the reuse axis.  Step 5 computes a per-dimension
span from the constant offsets of the load expressions relative to the first
load; step 6 inserts each load's axis expression into the ordered set
`requestedVars` and updates `distance` (initialized to -1, line 1223) with
the difference between the inserted expression and the minimum of the set;
step 7 requires some offset `c` with `c + 1` also present (the stride-1
pattern); step 9 allocates the reuse buffer shaped by the spans greater
than 1 before the axis, then `distance + 1`, then the array extents after
the axis; step 11 sets the axis loop's constant upper bound to the array
extent at the reuse dimension; step 14 guards the rewritten computation by
the integer-set constraint `d0 - distance >= 0` on the axis induction
variable.  The offset lists below record, in walk order, the constant
offsets of the loads along the reuse axis (the non-reduction path of the
source, where every axis expression is `d0 + c`). -/

/-- The span computation of step 5 (lines 1155-1212): starting from 0, every
load contributes `offset - base + 1` where the base is the offset of the
first load. -/
def spanOfOffsets (cs : List Int) : Int :=
  match cs with
  | [] => 0
  | c0 :: _ => cs.foldl (fun s c => max s (c - c0 + 1)) 0

/-- One step of the distance computation of step 6 (lines 1284-1298): the
offset joins the ordered set and the distance becomes the maximum of the
previous distance and the difference between the offset and the minimum of
the set so far. -/
def reuseDistStep (acc : List Int × Int) (c : Int) : List Int × Int :=
  let s := c :: acc.1
  (s, max acc.2 (c - s.foldl min c))

/-- The `distance` value of `runReuseAt` over the loads' constant offsets
along the reuse axis, in walk order (initial value -1, line 1223). -/
def reuseDistance (cs : List Int) : Int :=
  (cs.foldl reuseDistStep ([], -1)).2

/-- The stride-1 reuse-pattern check of step 7 (lines 1305-1313): some
observed offset plus one is also observed. -/
def canReuseB (cs : List Int) : Bool :=
  cs.any (fun c => cs.contains (c + 1))

/-- The reuse-buffer shape of step 9 (lines 1445-1456): spans greater than 1
of the dimensions before the reuse axis, then `distance + 1` at the axis,
then the array's full extents after the axis. -/
def reuseBufShape (spans : List Int) (axis : Nat) (distance : Int)
    (shape : List Int) : List Int :=
  (spans.take axis).filter (fun s => decide (1 < s)) ++
    (distance + 1) :: shape.drop (axis + 1)

/-- The affine guard of step 14 (lines 1633-1643): the integer-set
constraint `d0 - distance >= 0` evaluated on the reuse-axis induction
variable. -/
def reuseGuard (distance iv : Int) : Bool :=
  decide (0 ≤ iv - distance)

/-- The outputs of `runReuseAt` the claims are about: the reuse-buffer
shape, the updated constant upper bounds of the stage's non-reduction
loops, and the computed window distance. -/
structure ReuseResult where
  bufShape : List Int
  newLoopUBs : List Int
  distance : Int
deriving DecidableEq, Repr

/-- The success path of `runReuseAt` restricted to the quantities the
claims mention: the stride-1 check of step 7 gates success, step 9 shapes
the buffer, and step 11 performs
`nonReductionLoops[loopAxis].setConstantUpperBound(target.shape[axis])`
(lines 1469-1472).  `axis` is the array dimension of the reuse axis,
`loopAxis` the position of the reuse loop among the non-reduction loops. -/
def runReuseAtModel (shape spans cs : List Int) (axis loopAxis : Nat)
    (loopUBs : List Int) : Option ReuseResult :=
  if canReuseB cs then
    let d := reuseDistance cs
    some { bufShape := reuseBufShape spans axis d shape
           newLoopUBs := loopUBs.set loopAxis (shape.getD axis 0)
           distance := d }
  else none

/-- The largest observed offset. -/
def maxOffset (cs : List Int) : Int := cs.foldl max (cs.headD 0)

/-- The smallest observed offset. -/
def minOffset (cs : List Int) : Int := cs.foldl min (cs.headD 0)

/-! ## Loop reordering (`runReordering`)

`runReordering` (LoopTransformations.cpp, lines 332-439) collects the names
of the stage's maximal perfect nest outermost first (step 4), expands the
requested partial order to a full permutation of the nest by walking the
original names and substituting the next not-yet-consumed requested name
whenever the current name occurs among the requested ones (step 5.2, lines
383-396), computes `permMap[i]` as the position of the i-th original loop in
that new order (step 5.3, lines 398-412), and calls `mlir::permuteLoops`,
which moves the i-th loop of the nest to position `permMap[i]`. -/

/-- Step 5.2 of `runReordering`: walk the original loop names and replace
the names that occur among the requested ones, in order, by the requested
names.  `orig` is the full requested list (the source always tests
membership against it), `rem` the not-yet-consumed suffix. -/
def fillOrder (orig : List String) : List String → List String → List String
  | [], _ => []
  | n :: ns, rem =>
    if n ∈ orig then rem.headD n :: fillOrder orig ns rem.tail
    else n :: fillOrder orig ns rem

/-- The full new loop order computed by step 5.2 of `runReordering`. -/
def reorderNewOrder (names args : List String) : List String :=
  fillOrder args names args

/-- Step 5.3 of `runReordering`: `permMap[i]` is the position of the i-th
original loop name inside the new order. -/
def permMapOf (names newOrder : List String) : List Nat :=
  names.map (fun n => newOrder.indexOf n)

/-- The contract of `mlir::permuteLoops(nest, permMap)` (line 421 of the
source): the i-th loop of the original nest becomes the `permMap[i]`-th loop
of the permuted nest, so position `p` of the result holds the original loop
whose index is mapped to `p`. -/
def applyPermMap (names : List String) (pm : List Nat) : List String :=
  (List.range names.length).map (fun p => names.getD (pm.indexOf p) "")

/-- The loop order of the band after a successful `runReordering`. -/
def reorderResult (names args : List String) : List String :=
  applyPermMap names (permMapOf names (reorderNewOrder names args))

/-! ## Split / Tile validation (`runSplitting`, `runTiling`)

`runSplitting` (LoopTransformations.cpp, lines 69-192) validates before it
mutates: it resolves the stage (emitting "Cannot find Stage" on failure),
finds the loop inside the stage (emitting "Cannot find Loop"), and rejects
a tiling factor that is at least the loop's constant upper bound (lines
101-106); only then does step 4 call `tilePerfectlyNested`.  `runTiling`
(lines 194-330) resolves two contiguously nested loops instead and checks
both factors against the respective bounds. -/

/-- A loop as seen by the split/tile validation: a name and the constant
upper bound `getConstantUpperBound` reads. -/
structure SLoop where
  name : String
  ub : Int
deriving DecidableEq, Repr

/-- A stage: its name and the loops of its band in nesting order. -/
structure SStage where
  sname : String
  loops : List SLoop
deriving DecidableEq, Repr

/-- Modelled from the spec: `getStage` (declared in hcl/Support/Utils, whose
implementation is not among these sources) resolves a stage handle by
scanning for the loop band whose stage name matches. -/
def getStageM (stages : List SStage) (nm : String) : Option SStage :=
  stages.find? (fun st => st.sname == nm)

/-- Modelled from the spec: the walk of `runSplitting` step 3 takes the
first loop of the stage whose live loop name matches the handle. -/
def findLoopM (st : SStage) (nm : String) : Option SLoop :=
  st.loops.find? (fun l => l.name == nm)

/-- Modelled from the spec: `findContiguousNestedLoops` (hcl/Support/Utils)
looks for the two requested loops nested contiguously, outer then inner. -/
def findContigPair (st : SStage) (x y : String) : Option (SLoop × SLoop) :=
  (st.loops.zip st.loops.tail).find?
    (fun p => p.1.name == x && p.2.name == y)

/-- The failure modes of split/tile validation. -/
inductive SplitError where
  | stageNotFound
  | loopNotFound
  | factorTooLarge
deriving DecidableEq, Repr

/-- The validation phase of `runSplitting` (lines 69-106): every error
return precedes any mutation, so a failure leaves the loop nest unchanged;
passing all checks reaches the `tilePerfectlyNested` rewrite of step 4. -/
def runSplittingValidate (stages : List SStage) (stage loop : String)
    (factor : Int) : Except SplitError Unit :=
  match getStageM stages stage with
  | none => Except.error .stageNotFound
  | some st =>
    match findLoopM st loop with
    | none => Except.error .loopNotFound
    | some l => if factor ≥ l.ub then Except.error .factorTooLarge else .ok ()

/-- The validation phase of `runTiling` (lines 194-241): stage lookup,
contiguous-pair lookup starting from the `x` loop, then the two factor
checks in order. -/
def runTilingValidate (stages : List SStage) (stage x y : String)
    (fx fy : Int) : Except SplitError Unit :=
  match getStageM stages stage with
  | none => Except.error .stageNotFound
  | some st =>
    match findContigPair st x y with
    | none => Except.error .loopNotFound
    | some p =>
      if fx ≥ p.1.ub then Except.error .factorTooLarge
      else if fy ≥ p.2.ub then Except.error .factorTooLarge
      else .ok ()

/-- Whether an `Except` result is a failure. -/
def isErr {ε α : Type} : Except ε α → Bool
  | .error _ => true
  | .ok _ => false

/-! ## Schedule driver (`applyLoopTransformationOnSingleFunction`,
`applyLoopTransformation`)

The single-function driver (lines 2490-2579) walks the function's
operations in program order; every recognized schedule operation is
dispatched and a failed primitive makes the driver return false at once, so
no later statement is processed.  The top-function driver
(lines 2598-2682) also walks in order, but it returns false only when a
partition, reshape or inter-kernel-to statement fails; for the other
primitives it calls `runSchedule` and discards the boolean result, and
computeAt (commented out), layout and outline have no dispatch case at
all. -/

/-- The schedule primitives the dispatchers of the source recognize. -/
inductive PrimKind where
  | split
  | tile
  | reorder
  | unroll
  | pipeline
  | threadBind
  | parallel
  | fuse
  | computeAt
  | partition
  | reuseAt
  | bufferAt
  | reshape
  | layout
  | interKernelTo
  | outline
deriving DecidableEq, Repr

/-- A schedule statement: its primitive kind and its action on the
function state; `none` models a primitive whose `LogicalResult` failed. -/
structure SchedStmt (σ : Type) where
  kind : PrimKind
  run : σ → Option σ

/-- The single-function driver loop (lines 2494-2575): strict program
order, immediate `return false` on any failure. -/
def applySingle {σ : Type} : List (SchedStmt σ) → σ → Option σ
  | [], s => some s
  | st :: rest, s =>
    match st.run s with
    | none => none
    | some s2 => applySingle rest s2

/-- The kinds whose failure aborts the top-function driver: partition
(line 2631), reshape (line 2650) and inter-kernel-to (line 2670). -/
def topAborts : PrimKind → Bool
  | .partition => true
  | .reshape => true
  | .interKernelTo => true
  | _ => false

/-- The kinds the top-function driver actually executes: computeAt's
dispatch is commented out (line 2624) and layout / outline have no case in
the top-mode dispatch chain, so those statements do nothing there. -/
def topExecutes : PrimKind → Bool
  | .computeAt => false
  | .layout => false
  | .outline => false
  | _ => true

/-- The top-function driver loop (lines 2605-2674): aborting kinds fail the
whole program on failure; other executed kinds run through `runSchedule`,
whose boolean result is discarded, so their failure leaves the state as the
failed primitive left it and processing continues. -/
def applyTop {σ : Type} : List (SchedStmt σ) → σ → Option σ
  | [], s => some s
  | st :: rest, s =>
    if topAborts st.kind then
      match st.run s with
      | none => none
      | some s2 => applyTop rest s2
    else if topExecutes st.kind then
      applyTop rest ((st.run s).getD s)
    else
      applyTop rest s

/-! ## The fuse failure path (`runFusing` and `coalesceLoops`)

`coalesceLoops` (lines 594-612) returns a bare `failure()` when the band
has fewer than two loops or any loop is not normalized — no diagnostic is
emitted there — and `runFusing` (lines 753-757) forwards that failure with
a bare `return failure()`, again without emitting anything.  The
diagnostics `runFusing` does emit all belong to the earlier lookup phase
(too few loops, stage not found, contiguous loops not found). -/

/-- A loop as seen by the coalesce normalization check: name, step and the
optional constant lower/upper bounds (`none` models a non-constant
bound). -/
structure FLoop where
  fname : String
  step : Int
  lb : Option Int
  ub : Option Int
deriving DecidableEq, Repr

/-- The normalization requirement of `coalesceLoops` (lines 604-611): unit
step, constant lower bound equal to zero, constant upper bound. -/
def loopNormalizable (l : FLoop) : Bool :=
  (l.step == 1) &&
    (match l.lb with
     | some c => c == 0
     | none => false) &&
    l.ub.isSome

/-- The validation of `coalesceLoops` (lines 596-612): at least two loops
and every loop normalized.  When this is false the function returns
`failure()` without emitting a diagnostic. -/
def coalesceLoopsCheck (loops : List FLoop) : Bool :=
  decide (2 ≤ loops.length) && loops.all loopNormalizable

/-- A stage for the fuse model: its name and its perfect nest, outermost
first. -/
structure FuseStage where
  stName : String
  band : List FLoop
deriving DecidableEq, Repr

/-- Modelled from the spec: `findContiguousNestedLoops` (hcl/Support/Utils)
locates the position where the requested loop names appear contiguously in
the stage's nest, outermost to innermost. -/
def findContigIdx (band : List FLoop) (names : List String) : Option Nat :=
  (List.range band.length).find?
    (fun i => ((band.drop i).take names.length).map (fun l => l.fname) == names)

/-- Modelled from the spec: stage handle resolution by name for the fuse
model. -/
def getFuseStage (stages : List FuseStage) (nm : String) : Option FuseStage :=
  stages.find? (fun st => st.stName == nm)

/-- `runFusing` (lines 711-804) together with the diagnostics it emits on
the path actually taken; the success value is the name of the fused loop
built in step 6 (`<name1>_<name2>_..._fused`). -/
def runFusingModel (stages : List FuseStage) (stageName : String)
    (loopNames : List String) : Except Unit String × List String :=
  if loopNames.length < 2 then
    (Except.error (), ["Should at least input 2 loops to be fused"])
  else
    match getFuseStage stages stageName with
    | none => (Except.error (), ["Cannot find Stage " ++ stageName])
    | some st =>
      match findContigIdx st.band loopNames with
      | none =>
        (Except.error (),
          ["Cannot find contiguous nested loops starting from Loop " ++
            loopNames.headD ""])
      | some i =>
        if coalesceLoopsCheck ((st.band.drop i).take loopNames.length) then
          (Except.ok (String.intercalate "_" loopNames ++ "_fused"), [])
        else
          (Except.error (), [])

/-! ## Dead memory-cell elimination (`MemRefDCE.cpp`)

`removeNeverLoadedMemRef` (MemRefDCE.cpp, lines 33-67) collects all
`memref.alloc` operations of a function in walk order, reverses the list,
and for each allocation checks whether any user of its result is a
`memref.load`, `affine.load`, `func.return` or `func.call`; if not, it
erases every remaining user and the allocation itself.  Function arguments
and global memrefs have no allocation inside the body and are never
candidates. -/

/-- The operation kinds relevant to the liveness test of the pass. -/
inductive MemKind where
  | memLoad
  | affLoad
  | ret
  | call
  | store
  | other
deriving DecidableEq, Repr

/-- A body item: a memref allocation, identified by the id of its result
value, or any other operation together with the memref ids among its
operands. -/
inductive BodyItem where
  | alloc (id : Nat)
  | op (kind : MemKind) (mems : List Nat)
deriving DecidableEq, Repr

/-- A function: its memref-typed arguments (ids with no defining alloc in
the body) and its body in walk order. -/
structure MFunc where
  args : List Nat
  body : List BodyItem
deriving DecidableEq, Repr

/-- The user kinds that make an allocation live (lines 44-57):
`memref.load`, `affine.load`, `func.return` and `func.call`. -/
def isLoadedKind : MemKind → Bool
  | .memLoad => true
  | .affLoad => true
  | .ret => true
  | .call => true
  | _ => false

/-- Whether a body item uses the result value of allocation `id` as an
operand. -/
def usesId (id : Nat) : BodyItem → Bool
  | .op _ mems => decide (id ∈ mems)
  | .alloc _ => false

/-- The `loaded_from` test of lines 43-58: some user of the allocation in
the current body is a load, return or call. -/
def hasLoadUser (body : List BodyItem) (id : Nat) : Bool :=
  body.any fun it =>
    match it with
    | .op k mems => isLoadedKind k && decide (id ∈ mems)
    | .alloc _ => false

/-- The erasure of lines 59-65: remove every remaining user of the
allocation and the allocation itself. -/
def eraseAllocAndUsers (body : List BodyItem) (id : Nat) : List BodyItem :=
  body.filter fun it =>
    match it with
    | .alloc i => decide (i ≠ id)
    | .op _ mems => decide (id ∉ mems)

/-- The ids of all allocations of the body, in walk order (lines 34-39). -/
def allocIds (body : List BodyItem) : List Nat :=
  body.filterMap fun it =>
    match it with
    | .alloc i => some i
    | .op _ _ => none

/-- One iteration of the processing loop of lines 41-66. -/
def dceStep (b : List BodyItem) (id : Nat) : List BodyItem :=
  if hasLoadUser b id then b else eraseAllocAndUsers b id

/-- `removeNeverLoadedMemRef` (lines 33-67): process the reversed
allocation list against the evolving body. -/
def removeNeverLoadedMemRef (f : MFunc) : MFunc :=
  { f with body := ((allocIds f.body).reverse).foldl dceStep f.body }

end HCL

namespace HCL

/-! # Theorems -/

theorem linRev_codeIVsRev (ubs : List Nat) (hne : ubs ≠ []) (q : Nat) :
    linRev ubs (codeIVsRev ubs q) = q := by
  induction ubs generalizing q with
  | nil => exact absurd rfl hne
  | cons u us ih =>
    cases us with
    | nil => simp [codeIVsRev, linRev]
    | cons u2 us2 =>
      simp only [codeIVsRev, linRev]
      rw [ih (by simp) (q / u)]
      exact Nat.mod_add_div q u

theorem codeIVsRev_lt (ubs : List Nat) (q : Nat)
    (hpos : ∀ u ∈ ubs, 0 < u) (hq : q < ubs.prod) :
    List.Forall₂ (· < ·) (codeIVsRev ubs q) ubs := by
  induction ubs generalizing q with
  | nil => simp [codeIVsRev]
  | cons u us ih =>
    have hu : 0 < u := hpos u (by simp)
    cases us with
    | nil =>
      refine List.Forall₂.cons ?_ List.Forall₂.nil
      simpa using hq
    | cons u2 us2 =>
      refine List.Forall₂.cons (Nat.mod_lt _ hu) ?_
      refine ih _ (fun v hv => hpos v (by simp [hv])) ?_
      have : q < (u2 :: us2).prod * u := by
        simpa [List.prod_cons, Nat.mul_comm] using hq
      exact (Nat.div_lt_iff_lt_mul hu).mpr this

theorem codeIVsRev_linRev (ubs xs : List Nat)
    (h : List.Forall₂ (· < ·) xs ubs) :
    codeIVsRev ubs (linRev ubs xs) = xs := by
  induction ubs generalizing xs with
  | nil =>
    cases h
    rfl
  | cons u us ih =>
    cases h with
    | cons hx hrest =>
      rename_i x xs'
      cases us with
      | nil =>
        cases hrest
        simp [codeIVsRev, linRev]
      | cons u2 us2 =>
        have hu : 0 < u := Nat.lt_of_le_of_lt (Nat.zero_le _) hx
        simp only [codeIVsRev, linRev]
        have h1 : (x + u * linRev (u2 :: us2) xs') % u = x := by
          rw [Nat.add_mul_mod_self_left]
          exact Nat.mod_eq_of_lt hx
        have h2 : (x + u * linRev (u2 :: us2) xs') / u = linRev (u2 :: us2) xs' := by
          rw [Nat.add_mul_div_left _ _ hu, Nat.div_eq_of_lt hx, Nat.zero_add]
        rw [h1, h2, ih _ hrest]

theorem linRev_lt (ubs xs : List Nat)
    (h : List.Forall₂ (· < ·) xs ubs) :
    linRev ubs xs < ubs.prod := by
  induction ubs generalizing xs with
  | nil =>
    cases h
    simp [linRev]
  | cons u us ih =>
    cases h with
    | cons hx hrest =>
      rename_i x xs'
      have hlt : linRev us xs' < us.prod := ih _ hrest
      calc x + u * linRev us xs' < u + u * linRev us xs' :=
            Nat.add_lt_add_right hx _
        _ = u * (linRev us xs' + 1) := by ring
        _ ≤ u * us.prod := Nat.mul_le_mul_left u hlt
        _ = (u :: us).prod := by simp [List.prod_cons]

theorem coalescedUpperBound_eq_prod (ubs : List Nat) :
    coalescedUpperBound ubs = ubs.prod := by
  simpa [coalescedUpperBound] using (List.prod_eq_foldl (l := ubs)).symm

theorem forall₂_lt_reverse {xs ubs : List Nat}
    (h : List.Forall₂ (· < ·) xs ubs) :
    List.Forall₂ (· < ·) xs.reverse ubs.reverse :=
  List.forall₂_reverse_iff.mpr h

/-- Claim C1: fusing k ≥ 2 contiguously nested normalized loops produces a
single loop whose constant upper bound is the product of the original
constant upper bounds, and the floordiv/mod reconstruction of the original
induction variables (innermost-first running quotient, lines 633-676 of
LoopTransformations.cpp) enumerates exactly the original index tuples: it is
a bijection between `[0, prod)` and the set of per-level index tuples. -/
theorem fuse_tripcount_bijection (ubs : List Nat)
    (hlen : 2 ≤ ubs.length) (hpos : ∀ u ∈ ubs, 0 < u) :
    coalescedUpperBound ubs = ubs.prod ∧
    (∀ t, t < ubs.prod →
      List.Forall₂ (· < ·) (coalescedIVs ubs t) ubs ∧
      linearizeIdx ubs (coalescedIVs ubs t) = t) ∧
    (∀ xs, List.Forall₂ (· < ·) xs ubs →
      linearizeIdx ubs xs < ubs.prod ∧
      coalescedIVs ubs (linearizeIdx ubs xs) = xs) := by
  have hrevne : ubs.reverse ≠ [] := by
    intro hcon
    have : ubs = [] := by simpa using congrArg List.reverse hcon
    simp [this] at hlen
  have hrevpos : ∀ u ∈ ubs.reverse, 0 < u := by
    intro u hu
    exact hpos u (List.mem_reverse.mp hu)
  refine ⟨coalescedUpperBound_eq_prod ubs, ?_, ?_⟩
  · intro t ht
    have ht' : t < ubs.reverse.prod := by simpa [List.prod_reverse] using ht
    have hb := codeIVsRev_lt ubs.reverse t hrevpos ht'
    constructor
    · have := forall₂_lt_reverse hb
      simpa [coalescedIVs] using this
    · show linRev ubs.reverse (coalescedIVs ubs t).reverse = t
      simpa [coalescedIVs] using linRev_codeIVsRev ubs.reverse hrevne t
  · intro xs hxs
    have hrev : List.Forall₂ (· < ·) xs.reverse ubs.reverse :=
      forall₂_lt_reverse hxs
    constructor
    · have := linRev_lt ubs.reverse xs.reverse hrev
      simpa [linearizeIdx, List.prod_reverse] using this
    · show (codeIVsRev ubs.reverse (linRev ubs.reverse xs.reverse)).reverse = xs
      rw [codeIVsRev_linRev ubs.reverse xs.reverse hrev, List.reverse_reverse]

/-- Witness for claim C1 at the concrete band `[3, 4]`. -/
theorem fuse_tripcount_bijection_witness :
    coalescedUpperBound [3, 4] = List.prod [3, 4] ∧
    (∀ t, t < List.prod [3, 4] →
      List.Forall₂ (· < ·) (coalescedIVs [3, 4] t) [3, 4] ∧
      linearizeIdx [3, 4] (coalescedIVs [3, 4] t) = t) ∧
    (∀ xs, List.Forall₂ (· < ·) xs [3, 4] →
      linearizeIdx [3, 4] xs < List.prod [3, 4] ∧
      coalescedIVs [3, 4] (linearizeIdx [3, 4] xs) = xs) :=
  fuse_tripcount_bijection [3, 4] (by decide) (by decide)

theorem getD_map_range {α : Type} (f : Nat → α) (n d : Nat) (dflt : α)
    (h : d < n) : ((List.range n).map f).getD d dflt = f d := by
  rw [List.getD_eq_getElem _ _ (by simpa using h)]
  simp

theorem runPartitionModel_elems (shape : List Nat) (kind : PartitionKind)
    (targetDim : Nat) (factor : Option Nat) (prev res : List AExpr) (f : Nat)
    (hrun : runPartitionModel shape kind targetDim factor prev = some res)
    (hf : factor = some f ∨ (factor = none ∧ kind = .complete ∧ f = 0)) :
    res.length = 2 * shape.length ∧
    (∀ d, d < shape.length →
      res.getD d (.cst 0) = bankCompOf shape kind targetDim f prev d ∧
      res.getD (shape.length + d) (.cst 0) =
        offsetCompOf shape kind targetDim f prev d) := by
  have hres : res =
      (List.range shape.length).map (bankCompOf shape kind targetDim f prev) ++
      (List.range shape.length).map (offsetCompOf shape kind targetDim f prev) := by
    rcases hf with hf | ⟨hf1, hf2, hf3⟩
    · subst hf
      simpa [runPartitionModel] using hrun.symm
    · subst hf1; subst hf2; subst hf3
      simpa [runPartitionModel] using hrun.symm
  subst hres
  constructor
  · simp [Nat.two_mul]
  · intro d hd
    constructor
    · rw [List.getD_append _ _ _ _ (by simpa using hd)]
      exact getD_map_range _ _ _ _ hd
    · rw [List.getD_append_right _ _ _ _ (by simp)]
      simpa using getD_map_range
        (offsetCompOf shape kind targetDim f prev) shape.length d (.cst 0) hd

/-- Claim C2: a successful `partition(array, kind, dim, factor)` produces a
layout map with exactly `2 * rank` results, all bank components before all
offset components; on a selected dimension `d` of extent `E`, cyclic
partitioning yields bank `i % factor` and offset `i / factor`, block
partitioning yields bank `i / ((E + factor - 1) / factor)` (ceiling of
`E / factor`) and offset `i % ((E + factor - 1) / factor)`, and complete
partitioning yields bank `i` and constant offset `0` whether or not a
factor was supplied. -/
theorem partition_layout_formulas (shape : List Nat) (kind : PartitionKind)
    (targetDim : Nat) (factor : Option Nat) (prev res : List AExpr)
    (hrun : runPartitionModel shape kind targetDim factor prev = some res) :
    res.length = 2 * shape.length ∧
    (∃ banks offsets : List AExpr,
      res = banks ++ offsets ∧ banks.length = shape.length ∧
      offsets.length = shape.length) ∧
    (∀ d, d < shape.length → selB targetDim d = true →
      ∀ env : Nat → Nat,
        (kind = .cyclic → ∃ f, factor = some f ∧
          (res.getD d (.cst 0)).eval env = env d % f ∧
          (res.getD (shape.length + d) (.cst 0)).eval env = env d / f) ∧
        (kind = .block → ∃ f, factor = some f ∧
          (res.getD d (.cst 0)).eval env =
            env d / blockFactor (shape.getD d 0) f ∧
          (res.getD (shape.length + d) (.cst 0)).eval env =
            env d % blockFactor (shape.getD d 0) f) ∧
        (kind = .complete →
          (res.getD d (.cst 0)).eval env = env d ∧
          (res.getD (shape.length + d) (.cst 0)).eval env = 0)) := by
  have hf : ∃ f, factor = some f ∨ (factor = none ∧ kind = .complete ∧ f = 0) := by
    cases hfac : factor with
    | none =>
      refine ⟨0, Or.inr ⟨rfl, ?_, rfl⟩⟩
      by_contra hk
      simp [runPartitionModel, hfac, hk] at hrun
    | some f => exact ⟨f, Or.inl rfl⟩
  obtain ⟨f, hf⟩ := hf
  obtain ⟨hlen, helems⟩ :=
    runPartitionModel_elems shape kind targetDim factor prev res f hrun hf
  refine ⟨hlen, ?_, ?_⟩
  · refine ⟨(List.range shape.length).map (bankCompOf shape kind targetDim f prev),
      (List.range shape.length).map (offsetCompOf shape kind targetDim f prev),
      ?_, by simp, by simp⟩
    rcases hf with hf | ⟨hf1, hf2, hf3⟩
    · subst hf
      simpa [runPartitionModel] using hrun.symm
    · subst hf1; subst hf2; subst hf3
      simpa [runPartitionModel] using hrun.symm
  · intro d hd hsel env
    obtain ⟨hbank, hoffset⟩ := helems d hd
    refine ⟨?_, ?_, ?_⟩
    · rintro rfl
      have hfs : factor = some f := by
        rcases hf with hf | ⟨_, hk, _⟩
        · exact hf
        · cases hk
      refine ⟨f, hfs, ?_, ?_⟩
      · rw [hbank]
        simp [bankCompOf, hsel, AExpr.eval]
      · rw [hoffset]
        simp [offsetCompOf, hsel, AExpr.eval]
    · rintro rfl
      have hfs : factor = some f := by
        rcases hf with hf | ⟨_, hk, _⟩
        · exact hf
        · cases hk
      refine ⟨f, hfs, ?_, ?_⟩
      · rw [hbank]
        simp [bankCompOf, hsel, AExpr.eval]
      · rw [hoffset]
        simp [offsetCompOf, hsel, AExpr.eval]
    · rintro rfl
      refine ⟨?_, ?_⟩
      · rw [hbank]
        simp [bankCompOf, hsel, AExpr.eval]
      · rw [hoffset]
        simp [offsetCompOf, hsel, AExpr.eval]

/-- Witness for claim C2: cyclic partitioning of a rank-2 array of shape
`4 x 6` with factor 2 on all dimensions. -/
theorem partition_layout_formulas_witness :
    ∃ res, runPartitionModel [4, 6] .cyclic 0 (some 2) [.dim 0, .dim 1] = some res ∧
      (res.length = 2 * ([4, 6] : List Nat).length ∧
       (∃ banks offsets : List AExpr,
         res = banks ++ offsets ∧ banks.length = ([4, 6] : List Nat).length ∧
         offsets.length = ([4, 6] : List Nat).length) ∧
       (∀ d, d < ([4, 6] : List Nat).length → selB 0 d = true →
         ∀ env : Nat → Nat,
           (PartitionKind.cyclic = .cyclic → ∃ f, (some 2 : Option Nat) = some f ∧
             (res.getD d (.cst 0)).eval env = env d % f ∧
             (res.getD (([4, 6] : List Nat).length + d) (.cst 0)).eval env = env d / f) ∧
           (PartitionKind.cyclic = .block → ∃ f, (some 2 : Option Nat) = some f ∧
             (res.getD d (.cst 0)).eval env =
               env d / blockFactor (([4, 6] : List Nat).getD d 0) f ∧
             (res.getD (([4, 6] : List Nat).length + d) (.cst 0)).eval env =
               env d % blockFactor (([4, 6] : List Nat).getD d 0) f) ∧
           (PartitionKind.cyclic = .complete →
             (res.getD d (.cst 0)).eval env = env d ∧
             (res.getD (([4, 6] : List Nat).length + d) (.cst 0)).eval env = 0))) :=
  ⟨[.amod (.dim 0) 2, .amod (.dim 1) 2, .fdiv (.dim 0) 2, .fdiv (.dim 1) 2],
    by decide,
    partition_layout_formulas [4, 6] .cyclic 0 (some 2) [.dim 0, .dim 1] _ (by decide)⟩

/-- Claim C9: the `dim` argument of partition is 1-based with 0 selecting
every dimension: the selection test succeeds for all dimensions when
`targetDim = 0` and exactly for dimension `targetDim - 1` otherwise, and an
unselected dimension receives the pass-through pair (constant bank 0 and
identity offset) when the incoming layout map still has `rank` results, and
otherwise copies its pre-existing layout component into both the bank and
the offset slot (lines 1016-1052 of LoopTransformations.cpp). -/
theorem partition_dim_selection (shape : List Nat) (kind : PartitionKind)
    (targetDim : Nat) (factor : Option Nat) (prev res : List AExpr)
    (hrun : runPartitionModel shape kind targetDim factor prev = some res) :
    (∀ d, selB targetDim d = true ↔
      (targetDim = 0 ∨ (1 ≤ targetDim ∧ d = targetDim - 1))) ∧
    (∀ d, d < shape.length → selB targetDim d = false →
      (prev.length = shape.length →
        res.getD d (.cst 0) = .cst 0 ∧
        res.getD (shape.length + d) (.cst 0) = .dim d) ∧
      (prev.length ≠ shape.length →
        res.getD d (.cst 0) = prev.getD d (.cst 0) ∧
        res.getD (shape.length + d) (.cst 0) = prev.getD d (.cst 0))) := by
  have hf : ∃ f, factor = some f ∨ (factor = none ∧ kind = .complete ∧ f = 0) := by
    cases hfac : factor with
    | none =>
      refine ⟨0, Or.inr ⟨rfl, ?_, rfl⟩⟩
      by_contra hk
      simp [runPartitionModel, hfac, hk] at hrun
    | some f => exact ⟨f, Or.inl rfl⟩
  obtain ⟨f, hf⟩ := hf
  obtain ⟨_, helems⟩ :=
    runPartitionModel_elems shape kind targetDim factor prev res f hrun hf
  constructor
  · intro d
    constructor
    · intro hsel
      simp only [selB, Bool.or_eq_true, beq_iff_eq, Bool.and_eq_true,
        decide_eq_true_eq] at hsel
      rcases hsel with h0 | ⟨hpos, hd⟩
      · exact Or.inl h0
      · exact Or.inr ⟨hpos, hd⟩
    · intro hsel
      rcases hsel with h0 | ⟨hpos, hd⟩
      · simp [selB, h0]
      · simp [selB, hd, Nat.lt_of_lt_of_le Nat.zero_lt_one hpos]
  · intro d hd hsel
    obtain ⟨hbank, hoffset⟩ := helems d hd
    constructor
    · intro hprev
      refine ⟨?_, ?_⟩
      · rw [hbank]
        simp [bankCompOf, hsel, hprev]
      · rw [hoffset]
        simp [offsetCompOf, hsel, hprev]
    · intro hprev
      refine ⟨?_, ?_⟩
      · rw [hbank]
        simp [bankCompOf, hsel, hprev]
      · rw [hoffset]
        simp [offsetCompOf, hsel, hprev]

/-- Witness for claim C9: block partitioning with `dim = 2` on a rank-2
array rewrites only dimension 1 and passes dimension 0 through. -/
theorem partition_dim_selection_witness :
    ∃ res, runPartitionModel [4, 6] .block 2 (some 3) [.dim 0, .dim 1] = some res ∧
      ((∀ d, selB 2 d = true ↔ (2 = 0 ∨ (1 ≤ 2 ∧ d = 2 - 1))) ∧
       (∀ d, d < ([4, 6] : List Nat).length → selB 2 d = false →
         (([.dim 0, .dim 1] : List AExpr).length = ([4, 6] : List Nat).length →
           res.getD d (.cst 0) = .cst 0 ∧
           res.getD (([4, 6] : List Nat).length + d) (.cst 0) = .dim d) ∧
         (([.dim 0, .dim 1] : List AExpr).length ≠ ([4, 6] : List Nat).length →
           res.getD d (.cst 0) = ([.dim 0, .dim 1] : List AExpr).getD d (.cst 0) ∧
           res.getD (([4, 6] : List Nat).length + d) (.cst 0) =
             ([.dim 0, .dim 1] : List AExpr).getD d (.cst 0)))) :=
  ⟨[.cst 0, .fdiv (.dim 1) 2, .dim 0, .amod (.dim 1) 2],
    by decide,
    partition_dim_selection [4, 6] .block 2 (some 3) [.dim 0, .dim 1] _ (by decide)⟩

theorem foldl_min_eq (l : List Int) (b : Int) :
    ∀ a : Int, b ≤ a → (∀ x ∈ l, b ≤ x) → (b = a ∨ b ∈ l) →
      l.foldl min a = b := by
  induction l with
  | nil =>
    intro a hab _ hmem
    rcases hmem with h | h
    · simpa using h.symm
    · cases h
  | cons x xs ih =>
    intro a hab hall hmem
    have hbx : b ≤ x := hall x (by simp)
    rcases hmem with h | h
    · subst h
      refine ih (min b x) (le_min le_rfl hbx) (fun y hy => hall y (by simp [hy])) ?_
      exact Or.inl (min_eq_left hbx).symm
    · rcases List.mem_cons.mp h with h | h
      · subst h
        refine ih (min a b) (le_min hab le_rfl) (fun y hy => hall y (by simp [hy])) ?_
        exact Or.inl (min_eq_right hab).symm
      · refine ih (min a x) (le_min hab hbx) (fun y hy => hall y (by simp [hy])) ?_
        exact Or.inr h

theorem reuseDistance_foldl (cs : List Int) (c0 : Int) :
    ∀ (l : List Int) (d : Int), c0 ∈ l → (∀ x ∈ l, c0 ≤ x) →
      (∀ x ∈ cs, c0 ≤ x) →
      (cs.foldl reuseDistStep (l, d)).2 =
        cs.foldl (fun a c => max a (c - c0)) d := by
  induction cs with
  | nil => intro l d _ _ _; rfl
  | cons c cs' ih =>
    intro l d hmem hall hcs
    have hc : c0 ≤ c := hcs c (by simp)
    have hmin : (c :: l).foldl min c = c0 := by
      refine foldl_min_eq (c :: l) c0 c hc ?_ (Or.inr (by simp [hmem]))
      intro x hx
      rcases List.mem_cons.mp hx with h | h
      · simpa [h] using hc
      · exact hall x h
    show ((cs').foldl reuseDistStep (reuseDistStep (l, d) c)).2 = _
    rw [show reuseDistStep (l, d) c = (c :: l, max d (c - c0)) by
      simp [reuseDistStep, hmin]]
    exact ih (c :: l) (max d (c - c0)) (by simp [hmem])
      (fun x hx => by
        rcases List.mem_cons.mp hx with h | h
        · simpa [h] using hc
        · exact hall x h)
      (fun x hx => hcs x (by simp [hx]))

theorem foldl_max_sub (cs : List Int) (c0 : Int) :
    ∀ a : Int, cs.foldl (fun x c => max x (c - c0)) (a - c0) =
      cs.foldl max a - c0 := by
  induction cs with
  | nil => intro a; rfl
  | cons c cs' ih =>
    intro a
    show cs'.foldl (fun x c => max x (c - c0)) (max (a - c0) (c - c0)) = _
    rw [List.foldl_cons]
    have hmx : max (a - c0) (c - c0) = max a c - c0 := max_sub_sub_right a c c0
    rw [hmx]
    exact ih (max a c)

theorem reuseDistance_sorted (c0 : Int) (cs : List Int)
    (hs : (c0 :: cs).Sorted (· ≤ ·)) :
    reuseDistance (c0 :: cs) = maxOffset (c0 :: cs) - minOffset (c0 :: cs) := by
  obtain ⟨hall, hsorted⟩ := List.sorted_cons.mp hs
  have hmin : minOffset (c0 :: cs) = c0 := by
    show (c0 :: cs).foldl min c0 = c0
    refine foldl_min_eq (c0 :: cs) c0 c0 le_rfl ?_ (Or.inl rfl)
    intro x hx
    rcases List.mem_cons.mp hx with h | h
    · simp [h]
    · exact hall x h
  have hmax : maxOffset (c0 :: cs) = cs.foldl max c0 := by
    show (c0 :: cs).foldl max c0 = cs.foldl max c0
    simp
  rw [hmin, hmax]
  show ((c0 :: cs).foldl reuseDistStep ([], -1)).2 = cs.foldl max c0 - c0
  have hstep : reuseDistStep ([], -1) c0 = ([c0], 0) := by
    simp [reuseDistStep]
  rw [List.foldl_cons, hstep,
    reuseDistance_foldl cs c0 [c0] 0 (by simp) (by simp) hall]
  have h0 : (0 : Int) = c0 - c0 := by ring
  rw [h0, foldl_max_sub cs c0 c0]

/-- Claim C3: a successful `reuse_at` synthesizes a reuse buffer whose shape
is the spans greater than 1 of the dimensions before the reuse axis, then
the maximum window distance plus one at the axis (for in-order loads the
distance is the difference between the largest and smallest observed
offsets), then the target array's full extents after the axis; the
rewritten computation is guarded by the affine condition that the axis
induction variable is at least the window distance.  In particular a 1-D
stencil window `a[i], a[i+1], a[i+2]` reports span 3, synthesizes a
3-element buffer, and is guarded by `i >= 2`. -/
theorem reuse_buffer_shape (shape spans cs : List Int) (axis loopAxis : Nat)
    (loopUBs : List Int) (r : ReuseResult)
    (hrun : runReuseAtModel shape spans cs axis loopAxis loopUBs = some r)
    (hcs : cs ≠ []) (hsorted : cs.Sorted (· ≤ ·)) :
    r.bufShape =
      (spans.take axis).filter (fun s => decide (1 < s)) ++
        (maxOffset cs - minOffset cs + 1) :: shape.drop (axis + 1) ∧
    (∀ iv : Int, reuseGuard r.distance iv = true ↔
      maxOffset cs - minOffset cs ≤ iv) ∧
    spanOfOffsets [0, 1, 2] = 3 ∧
    (∀ n m : Int, ∃ r1 : ReuseResult,
      runReuseAtModel [n] [3] [0, 1, 2] 0 0 [m] = some r1 ∧
      r1.bufShape = [3] ∧
      ∀ iv : Int, reuseGuard r1.distance iv = true ↔ 2 ≤ iv) := by
  obtain ⟨c0, cs', rfl⟩ : ∃ c0 cs', cs = c0 :: cs' := by
    cases cs with
    | nil => exact absurd rfl hcs
    | cons c0 cs' => exact ⟨c0, cs', rfl⟩
  have hdist := reuseDistance_sorted c0 cs' hsorted
  have hr : r = { bufShape := reuseBufShape spans axis (reuseDistance (c0 :: cs')) shape
                  newLoopUBs := loopUBs.set loopAxis (shape.getD axis 0)
                  distance := reuseDistance (c0 :: cs') } := by
    by_cases hcr : canReuseB (c0 :: cs') = true
    · rw [runReuseAtModel, if_pos hcr] at hrun
      exact (Option.some_inj.mp hrun).symm
    · rw [runReuseAtModel, if_neg hcr] at hrun
      cases hrun
  refine ⟨?_, ?_, by decide, ?_⟩
  · rw [hr]
    show reuseBufShape spans axis (reuseDistance (c0 :: cs')) shape = _
    rw [reuseBufShape, hdist]
  · intro iv
    rw [hr]
    show reuseGuard (reuseDistance (c0 :: cs')) iv = true ↔ _
    rw [hdist, reuseGuard]
    constructor
    · intro h
      have := of_decide_eq_true h
      omega
    · intro h
      exact decide_eq_true (by omega)
  · intro n m
    have hd : reuseDistance [0, 1, 2] = 2 := by decide
    have hcr : canReuseB [0, 1, 2] = true := by decide
    refine ⟨{ bufShape := [3], newLoopUBs := [n], distance := 2 }, ?_, rfl, ?_⟩
    · rw [runReuseAtModel, if_pos hcr]
      simp [reuseBufShape, hd]
    · intro iv
      show reuseGuard 2 iv = true ↔ 2 ≤ iv
      rw [reuseGuard]
      constructor
      · intro h
        have := of_decide_eq_true h
        omega
      · intro h
        exact decide_eq_true (by omega)

/-- Witness for claim C3: in-order window offsets `[0, 1, 2]` on a rank-1
array of extent 10. -/
theorem reuse_buffer_shape_witness :
    ∃ r : ReuseResult,
      runReuseAtModel [10] [3] [0, 1, 2] 0 0 [8] = some r ∧
      (r.bufShape =
        (([3] : List Int).take 0).filter (fun s => decide (1 < s)) ++
          (maxOffset [0, 1, 2] - minOffset [0, 1, 2] + 1) ::
            ([10] : List Int).drop 1 ∧
       (∀ iv : Int, reuseGuard r.distance iv = true ↔
         maxOffset [0, 1, 2] - minOffset [0, 1, 2] ≤ iv)) := by
  refine ⟨{ bufShape := [3], newLoopUBs := [10], distance := 2 }, by decide, ?_⟩
  have h := reuse_buffer_shape [10] [3] [0, 1, 2] 0 0 [8]
    { bufShape := [3], newLoopUBs := [10], distance := 2 }
    (by decide) (by decide) (by decide)
  exact ⟨h.1, h.2.1⟩

/-- Claim C10: every successful `reuse_at` sets the reuse-axis loop's
constant upper bound to the target array's extent along the reused array
dimension (step 11, lines 1469-1472 of LoopTransformations.cpp), leaving
every other non-reduction loop bound unchanged. -/
theorem reuse_axis_bound_update (shape spans cs : List Int)
    (axis loopAxis : Nat) (loopUBs : List Int) (r : ReuseResult)
    (hrun : runReuseAtModel shape spans cs axis loopAxis loopUBs = some r)
    (hlt : loopAxis < loopUBs.length) :
    r.newLoopUBs.getD loopAxis 0 = shape.getD axis 0 ∧
    r.newLoopUBs.length = loopUBs.length ∧
    ∀ j, j ≠ loopAxis → r.newLoopUBs.getD j 0 = loopUBs.getD j 0 := by
  have hr : r.newLoopUBs = loopUBs.set loopAxis (shape.getD axis 0) := by
    by_cases hcr : canReuseB cs = true
    · rw [runReuseAtModel, if_pos hcr] at hrun
      rw [← Option.some_inj.mp hrun]
    · rw [runReuseAtModel, if_neg hcr] at hrun
      cases hrun
  refine ⟨?_, ?_, ?_⟩
  · rw [hr, List.getD_eq_getElem _ _ (by simpa using hlt)]
    simp [List.getElem_set]
  · rw [hr, List.length_set]
  · intro j hj
    rw [hr]
    by_cases hjlen : j < loopUBs.length
    · rw [List.getD_eq_getElem _ _ (by simpa using hjlen),
        List.getD_eq_getElem _ _ hjlen]
      exact List.getElem_set_of_ne (fun h => hj h.symm) _ _
    · rw [List.getD_eq_default _ _ (by simpa using Nat.le_of_not_lt hjlen),
        List.getD_eq_default _ _ (Nat.le_of_not_lt hjlen)]

/-- Witness for claim C10: reuse along array dimension 1 with the reuse loop
at position 1 of the non-reduction band. -/
theorem reuse_axis_bound_update_witness :
    ∃ r : ReuseResult,
      runReuseAtModel [10, 12] [1, 3] [0, 1, 2] 1 1 [7, 9] = some r ∧
      (r.newLoopUBs.getD 1 0 = ([10, 12] : List Int).getD 1 0 ∧
       r.newLoopUBs.length = ([7, 9] : List Int).length ∧
       ∀ j, j ≠ 1 → r.newLoopUBs.getD j 0 = ([7, 9] : List Int).getD j 0) :=
  ⟨{ bufShape := [3], newLoopUBs := [7, 12], distance := 2 },
    by decide,
    reuse_axis_bound_update [10, 12] [1, 3] [0, 1, 2] 1 1 [7, 9] _
      (by decide) (by decide)⟩

theorem fillOrder_spec (orig : List String) :
    ∀ (ns rem : List String),
      (∀ r ∈ rem, r ∈ orig) →
      ns.countP (fun n => decide (n ∈ orig)) = rem.length →
      (fillOrder orig ns rem).filter (fun n => decide (n ∈ orig)) = rem ∧
      (fillOrder orig ns rem).filter (fun n => !decide (n ∈ orig)) =
        ns.filter (fun n => !decide (n ∈ orig)) ∧
      (fillOrder orig ns rem).length = ns.length := by
  intro ns
  induction ns with
  | nil =>
    intro rem _ hcount
    have hrem : rem = [] := List.length_eq_zero.mp (by simpa using hcount.symm)
    subst hrem
    exact ⟨rfl, rfl, rfl⟩
  | cons n ns ih =>
    intro rem hsub hcount
    by_cases hn : n ∈ orig
    · rw [List.countP_cons_of_pos _ _ (by simpa using hn)] at hcount
      cases rem with
      | nil => simp at hcount
      | cons r rem' =>
        have hcount' : ns.countP (fun n => decide (n ∈ orig)) = rem'.length := by
          simpa using hcount
        have hsub' : ∀ x ∈ rem', x ∈ orig := fun x hx => hsub x (by simp [hx])
        obtain ⟨h1, h2, h3⟩ := ih rem' hsub' hcount'
        have hr : r ∈ orig := hsub r (by simp)
        refine ⟨?_, ?_, ?_⟩
        · simp only [fillOrder, if_pos hn, List.headD_cons, List.tail_cons]
          rw [List.filter_cons_of_pos (by simpa using hr), h1]
        · simp only [fillOrder, if_pos hn, List.headD_cons, List.tail_cons]
          rw [List.filter_cons_of_neg (by simpa using hr), h2,
            List.filter_cons_of_neg (by simpa using hn)]
        · simp only [fillOrder, if_pos hn, List.headD_cons, List.tail_cons,
            List.length_cons, h3]
    · rw [List.countP_cons_of_neg _ _ (by simpa using hn)] at hcount
      obtain ⟨h1, h2, h3⟩ := ih rem hsub hcount
      refine ⟨?_, ?_, ?_⟩
      · simp only [fillOrder, if_neg hn]
        rw [List.filter_cons_of_neg (by simpa using hn), h1]
      · simp only [fillOrder, if_neg hn]
        rw [List.filter_cons_of_pos (by simpa using hn), h2,
          List.filter_cons_of_pos (by simpa using hn)]
      · simp only [fillOrder, if_neg hn, List.length_cons, h3]

theorem filter_mem_perm (names args : List String)
    (hnames : names.Nodup) (hargs : args.Nodup)
    (hsub : ∀ a ∈ args, a ∈ names) :
    List.Perm (names.filter (fun n => decide (n ∈ args))) args := by
  refine (List.perm_ext_iff_of_nodup (hnames.filter _) hargs).mpr ?_
  intro a
  simp only [List.mem_filter, decide_eq_true_eq]
  constructor
  · rintro ⟨_, ha⟩
    exact ha
  · intro ha
    exact ⟨hsub a ha, ha⟩

theorem reorderNewOrder_spec (names args : List String)
    (hnames : names.Nodup) (hargs : args.Nodup)
    (hsub : ∀ a ∈ args, a ∈ names) :
    List.Perm (reorderNewOrder names args) names ∧
    (reorderNewOrder names args).filter (fun n => decide (n ∈ args)) = args ∧
    (reorderNewOrder names args).filter (fun n => !decide (n ∈ args)) =
      names.filter (fun n => !decide (n ∈ args)) ∧
    (reorderNewOrder names args).length = names.length := by
  have hcount : names.countP (fun n => decide (n ∈ args)) = args.length := by
    rw [List.countP_eq_length_filter]
    exact (filter_mem_perm names args hnames hargs hsub).length_eq
  obtain ⟨h1, h2, h3⟩ := fillOrder_spec args names args (fun r hr => hr) hcount
  have h1' : (reorderNewOrder names args).filter
      (fun n => decide (n ∈ args)) = args := h1
  have h2' : (reorderNewOrder names args).filter
      (fun n => !decide (n ∈ args)) =
      names.filter (fun n => !decide (n ∈ args)) := h2
  refine ⟨?_, h1', h2', h3⟩
  have hres := (List.filter_append_perm
    (fun n => decide (n ∈ args)) (reorderNewOrder names args)).symm
  rw [h1', h2'] at hres
  exact hres.trans
    ((((filter_mem_perm names args hnames hargs hsub).symm).append_right _).trans
      (List.filter_append_perm (fun n => decide (n ∈ args)) names))

theorem indexOf_map_eq (f : String → Nat) (x : String) (b : Nat) :
    ∀ l : List String, x ∈ l → f x = b → (∀ y ∈ l, f y = b → y = x) →
      (l.map f).indexOf b = l.indexOf x := by
  intro l
  induction l with
  | nil => intro h; cases h
  | cons h t ih =>
    intro hx hfx huniq
    by_cases hhx : h = x
    · subst hhx
      rw [List.map_cons, List.indexOf_cons_eq _ hfx, List.indexOf_cons_self]
    · have hfh : f h ≠ b := by
        intro hc
        exact hhx (huniq h (by simp) hc)
      rw [List.map_cons, List.indexOf_cons_ne _ hfh,
        List.indexOf_cons_ne _ hhx]
      have hxt : x ∈ t := by
        rcases List.mem_cons.mp hx with hc | hc
        · exact absurd hc.symm hhx
        · exact hc
      rw [ih hxt hfx (fun y hy => huniq y (by simp [hy]))]

theorem applyPermMap_eq (names newOrder : List String)
    (hnames : names.Nodup) (hperm : List.Perm newOrder names) :
    applyPermMap names (permMapOf names newOrder) = newOrder := by
  have hlen : newOrder.length = names.length := hperm.length_eq
  have hnodup : newOrder.Nodup := hperm.nodup_iff.mpr hnames
  refine List.ext_getElem (by simp [applyPermMap, hlen]) ?_
  intro p hp1 hp2
  have hplen : p < names.length := by simpa [applyPermMap] using hp1
  have hpno : p < newOrder.length := by rw [hlen]; exact hplen
  have hx : newOrder[p] ∈ names := hperm.mem_iff.mp (newOrder.getElem_mem hpno)
  have hfx : newOrder.indexOf newOrder[p] = p :=
    List.indexOf_getElem hnodup p hpno
  have huniq : ∀ y ∈ names, newOrder.indexOf y = p → y = newOrder[p] := by
    intro y hy hiy
    have hy2 : newOrder[p]? = some y := by
      rw [← hiy]
      exact List.getElem?_indexOf (hperm.mem_iff.mpr hy)
    have hx2 : newOrder[p]? = some newOrder[p] := List.getElem?_eq_getElem hpno
    rw [hx2] at hy2
    exact (Option.some_inj.mp hy2).symm
  have hidx : (permMapOf names newOrder).indexOf p = names.indexOf newOrder[p] :=
    indexOf_map_eq _ _ _ names hx hfx huniq
  have hgoal : (applyPermMap names (permMapOf names newOrder))[p] =
      names.getD ((permMapOf names newOrder).indexOf p) "" := by
    simp [applyPermMap]
  rw [hgoal, hidx,
    List.getD_eq_getElem _ _ (List.indexOf_lt_length.mpr hx),
    List.getElem_indexOf (List.indexOf_lt_length.mpr hx)]

/-- Claim C4: a successful reorder only permutes the loops of the stage's
maximal perfect nest: the multiset of loop names in the band is unchanged,
the requested loops appear in the requested relative order, and every loop
not named keeps its original relative position (steps 4-6 of
`runReordering`; `permuteLoops` realizes the order computed by step 5.2). -/
theorem reorder_permutation (names args : List String)
    (hnames : names.Nodup) (hargs : args.Nodup)
    (hsub : ∀ a ∈ args, a ∈ names) (_hlen : 2 ≤ args.length) :
    List.Perm (reorderResult names args) names ∧
    (reorderResult names args).filter (fun n => decide (n ∈ args)) = args ∧
    (reorderResult names args).filter (fun n => !decide (n ∈ args)) =
      names.filter (fun n => !decide (n ∈ args)) := by
  obtain ⟨hperm, h1, h2, _⟩ := reorderNewOrder_spec names args hnames hargs hsub
  have happly : reorderResult names args = reorderNewOrder names args :=
    applyPermMap_eq names (reorderNewOrder names args) hnames hperm
  rw [happly]
  exact ⟨hperm, h1, h2⟩

/-- Witness for claim C4: reordering the band `[i, j, k]` with the request
`[k, i]`. -/
theorem reorder_permutation_witness :
    List.Perm (reorderResult ["i", "j", "k"] ["k", "i"]) ["i", "j", "k"] ∧
    (reorderResult ["i", "j", "k"] ["k", "i"]).filter
      (fun n => decide (n ∈ ["k", "i"])) = ["k", "i"] ∧
    (reorderResult ["i", "j", "k"] ["k", "i"]).filter
      (fun n => !decide (n ∈ ["k", "i"])) =
      (["i", "j", "k"] : List String).filter
        (fun n => !decide (n ∈ ["k", "i"])) :=
  reorder_permutation ["i", "j", "k"] ["k", "i"]
    (by decide) (by decide) (by decide) (by decide)

/-- Claim C5: split — and tile, for each of its two factors — fails (with a
reported error, before any mutation of the nest) exactly when the stage or
loop lookup fails or a factor is at least the target loop's constant upper
bound; when no such condition holds, validation passes and the primitive
proceeds to rewrite the nest (step 4 of `runSplitting` / `runTiling`). -/
theorem split_tile_error_conditions (stages : List SStage)
    (stage loop x y : String) (factor fx fy : Int) :
    (isErr (runSplittingValidate stages stage loop factor) = true ↔
      getStageM stages stage = none ∨
      (∃ st, getStageM stages stage = some st ∧
        (findLoopM st loop = none ∨
         ∃ l, findLoopM st loop = some l ∧ factor ≥ l.ub))) ∧
    (isErr (runTilingValidate stages stage x y fx fy) = true ↔
      getStageM stages stage = none ∨
      (∃ st, getStageM stages stage = some st ∧
        (findContigPair st x y = none ∨
         ∃ p, findContigPair st x y = some p ∧
           (fx ≥ p.1.ub ∨ fy ≥ p.2.ub)))) := by
  constructor
  · unfold runSplittingValidate
    cases hst : getStageM stages stage with
    | none => simp [isErr]
    | some st =>
      cases hl : findLoopM st loop with
      | none => simp [isErr, hl]
      | some l =>
        by_cases hf : factor ≥ l.ub
        · simp [isErr, hl, if_pos hf, hf]
        · simp [isErr, hl, if_neg hf, hf]
  · unfold runTilingValidate
    cases hst : getStageM stages stage with
    | none => simp [isErr]
    | some st =>
      cases hp : findContigPair st x y with
      | none => simp [isErr, hp]
      | some p =>
        by_cases hf1 : fx ≥ p.1.ub
        · simp only [isErr, hp, if_pos hf1]
          simp [hp]
          exact ⟨p.1, p.2, rfl, Or.inl hf1⟩
        · by_cases hf2 : fy ≥ p.2.ub
          · simp only [isErr, hp, if_neg hf1, if_pos hf2]
            simp [hp]
            exact ⟨p.1, p.2, rfl, Or.inr hf2⟩
          · simp only [isErr, hp, if_neg hf1, if_neg hf2]
            simp [hp]
            rintro a b rfl
            exact ⟨lt_of_not_ge hf1, lt_of_not_ge hf2⟩

/-- Witness for claim C5 at a concrete two-loop stage: a factor of 20
exceeds the bound 16 of loop `i`, and factors 4, 4 pass for `(i, j)`. -/
theorem split_tile_error_conditions_witness :
    ((isErr (runSplittingValidate [⟨"s", [⟨"i", 16⟩, ⟨"j", 8⟩]⟩] "s" "i" 20) = true ↔
      getStageM [⟨"s", [⟨"i", 16⟩, ⟨"j", 8⟩]⟩] "s" = none ∨
      (∃ st, getStageM [⟨"s", [⟨"i", 16⟩, ⟨"j", 8⟩]⟩] "s" = some st ∧
        (findLoopM st "i" = none ∨
         ∃ l, findLoopM st "i" = some l ∧ (20 : Int) ≥ l.ub))) ∧
    (isErr (runTilingValidate [⟨"s", [⟨"i", 16⟩, ⟨"j", 8⟩]⟩] "s" "i" "j" 4 4) = true ↔
      getStageM [⟨"s", [⟨"i", 16⟩, ⟨"j", 8⟩]⟩] "s" = none ∨
      (∃ st, getStageM [⟨"s", [⟨"i", 16⟩, ⟨"j", 8⟩]⟩] "s" = some st ∧
        (findContigPair st "i" "j" = none ∨
         ∃ p, findContigPair st "i" "j" = some p ∧
           ((4 : Int) ≥ p.1.ub ∨ (4 : Int) ≥ p.2.ub))))) :=
  split_tile_error_conditions [⟨"s", [⟨"i", 16⟩, ⟨"j", 8⟩]⟩] "s" "i" "i" "j" 20 4 4

theorem applySingle_append {σ : Type} (xs ys : List (SchedStmt σ)) (s : σ) :
    applySingle (xs ++ ys) s =
      (applySingle xs s).bind (fun w => applySingle ys w) := by
  induction xs generalizing s with
  | nil => rfl
  | cons st rest ih =>
    show applySingle (st :: (rest ++ ys)) s = _
    cases h : st.run s with
    | none => simp [applySingle, h]
    | some s2 => simp [applySingle, h, ih s2]

theorem applyTop_append {σ : Type} (xs ys : List (SchedStmt σ)) (s : σ) :
    applyTop (xs ++ ys) s = (applyTop xs s).bind (fun w => applyTop ys w) := by
  induction xs generalizing s with
  | nil => rfl
  | cons st rest ih =>
    show applyTop (st :: (rest ++ ys)) s = _
    by_cases ha : topAborts st.kind
    · cases h : st.run s with
      | none => simp [applyTop, ha, h]
      | some s2 => simp [applyTop, ha, h, ih s2]
    · by_cases he : topExecutes st.kind
      · simp [applyTop, ha, he, ih]
      · simp [applyTop, ha, he, ih]

/-- Counterexample to claim C6: in the top-function mode a failing split
statement does not abort the schedule program — the following unroll
statement still executes (its action is applied to the state), whereas the
single-function driver aborts on the same program. -/
theorem driver_top_mode_no_abort :
    applyTop (σ := Nat)
      [⟨.split, fun _ => none⟩, ⟨.unroll, fun n => some (n + 1)⟩] 0 = some 1 ∧
    applySingle (σ := Nat)
      [⟨.split, fun _ => none⟩, ⟨.unroll, fun n => some (n + 1)⟩] 0 = none :=
  ⟨rfl, rfl⟩

/-- Claim C6 as amended: both drivers process schedule statements strictly
in program order (they are sequential compositions over list append); in
single-function mode a statement that fails aborts all remaining statements
of the program; in the top-function mode only partition, reshape and
inter-kernel-to failures abort, while a failure of any other executed
primitive is discarded and processing continues. -/
theorem driver_order_and_abort {σ : Type} (pre rest : List (SchedStmt σ))
    (st : SchedStmt σ) (s t u : σ)
    (hsingle : applySingle pre s = some t) (hfail1 : st.run t = none)
    (htop : applyTop pre s = some u) (hfail2 : st.run u = none)
    (hna : topAborts st.kind = false) (hex : topExecutes st.kind = true) :
    applySingle (pre ++ st :: rest) s = none ∧
    applyTop (pre ++ st :: rest) s = applyTop rest u ∧
    (∀ (xs ys : List (SchedStmt σ)) (v : σ),
      applySingle (xs ++ ys) v =
        (applySingle xs v).bind (fun w => applySingle ys w) ∧
      applyTop (xs ++ ys) v =
        (applyTop xs v).bind (fun w => applyTop ys w)) ∧
    (∀ (f : σ → Option σ) (rest2 : List (SchedStmt σ)) (v : σ),
      f v = none → applyTop (⟨.partition, f⟩ :: rest2) v = none) := by
  refine ⟨?_, ?_, ?_, ?_⟩
  · rw [applySingle_append, hsingle]
    show applySingle (st :: rest) t = none
    unfold applySingle
    rw [hfail1]
  · rw [applyTop_append, htop]
    show applyTop (st :: rest) u = applyTop rest u
    simp [applyTop, hna, hex, hfail2]
  · intro xs ys v
    exact ⟨applySingle_append xs ys v, applyTop_append xs ys v⟩
  · intro f rest2 v hv
    simp [applyTop, topAborts, hv]

/-- Witness for the amended claim C6: a failing split after an empty prefix
aborts the single-function driver but not the top-function driver. -/
theorem driver_order_and_abort_witness :
    applySingle (σ := Nat)
      ([] ++ ⟨.split, fun _ => none⟩ ::
        [⟨.unroll, fun n => some (n + 1)⟩]) 0 = none ∧
    applyTop (σ := Nat)
      ([] ++ ⟨.split, fun _ => none⟩ ::
        [⟨.unroll, fun n => some (n + 1)⟩]) 0 =
      applyTop [⟨.unroll, fun n => some (n + 1)⟩] 0 ∧
    (∀ (xs ys : List (SchedStmt Nat)) (v : Nat),
      applySingle (xs ++ ys) v =
        (applySingle xs v).bind (fun w => applySingle ys w) ∧
      applyTop (xs ++ ys) v =
        (applyTop xs v).bind (fun w => applyTop ys w)) ∧
    (∀ (f : Nat → Option Nat) (rest2 : List (SchedStmt Nat)) (v : Nat),
      f v = none → applyTop (⟨.partition, f⟩ :: rest2) v = none) :=
  driver_order_and_abort [] [⟨.unroll, fun n => some (n + 1)⟩]
    ⟨.split, fun _ => none⟩ 0 0 0 rfl rfl rfl rfl rfl rfl

/-- Counterexample to claim C7: fusing the band `(i, j)` where loop `i` has
step 2 fails, but the failure path emits no diagnostic at all — the
coalesceLoops normalization failure is a bare `failure()` that `runFusing`
forwards silently (lines 753-757), so no message identifies the primitive,
its targets or the violated precondition. -/
theorem fuse_silent_failure_example :
    runFusingModel
      [⟨"s", [⟨"i", 2, some 0, some 10⟩, ⟨"j", 1, some 0, some 8⟩]⟩]
      "s" ["i", "j"] = (Except.error (), []) := by
  rfl

/-- Claim C7 as amended: when fuse targets loops that cannot be normalized
(after the stage and the contiguous band have been found), the primitive
does fail, but no diagnostic is emitted on that failure path: the
diagnostic list of the run is empty. -/
theorem fuse_unnormalizable_silent (stages : List FuseStage)
    (stageName : String) (loopNames : List String) (st : FuseStage) (i : Nat)
    (hlen : 2 ≤ loopNames.length)
    (hstage : getFuseStage stages stageName = some st)
    (hidx : findContigIdx st.band loopNames = some i)
    (hbad : ∃ l ∈ (st.band.drop i).take loopNames.length,
      loopNormalizable l = false) :
    runFusingModel stages stageName loopNames = (Except.error (), []) := by
  obtain ⟨l, hl, hnorm⟩ := hbad
  have hcheck :
      coalesceLoopsCheck ((st.band.drop i).take loopNames.length) = false := by
    unfold coalesceLoopsCheck
    have : ((st.band.drop i).take loopNames.length).all loopNormalizable = false := by
      rw [List.all_eq_false]
      exact ⟨l, hl, by simp [hnorm]⟩
    simp [this]
  unfold runFusingModel
  rw [if_neg (by omega)]
  simp [hstage, hidx, hcheck]

/-- Witness for the amended claim C7 at a concrete band whose second loop
has a non-constant upper bound. -/
theorem fuse_unnormalizable_silent_witness :
    runFusingModel
      [⟨"s", [⟨"i", 1, some 0, some 10⟩, ⟨"j", 1, some 0, none⟩]⟩]
      "s" ["i", "j"] = (Except.error (), []) :=
  fuse_unnormalizable_silent
    [⟨"s", [⟨"i", 1, some 0, some 10⟩, ⟨"j", 1, some 0, none⟩]⟩]
    "s" ["i", "j"]
    ⟨"s", [⟨"i", 1, some 0, some 10⟩, ⟨"j", 1, some 0, none⟩]⟩ 0
    (by decide) (by rfl) (by rfl)
    ⟨⟨"j", 1, some 0, none⟩, by decide, by decide⟩

theorem eraseAllocAndUsers_subset (b : List BodyItem) (id : Nat) :
    ∀ it ∈ eraseAllocAndUsers b id, it ∈ b := by
  intro it hit
  exact List.mem_of_mem_filter hit

theorem hasLoadUser_erase (b : List BodyItem) (id0 : Nat)
    (h0 : hasLoadUser b id0 = false) (id : Nat) :
    hasLoadUser (eraseAllocAndUsers b id0) id = hasLoadUser b id := by
  have hforward : hasLoadUser (eraseAllocAndUsers b id0) id = true →
      hasLoadUser b id = true := by
    intro h
    rw [hasLoadUser, List.any_eq_true] at h ⊢
    obtain ⟨it, hit, hp⟩ := h
    exact ⟨it, eraseAllocAndUsers_subset b id0 it hit, hp⟩
  have hback : hasLoadUser b id = true →
      hasLoadUser (eraseAllocAndUsers b id0) id = true := by
    intro h
    rw [hasLoadUser, List.any_eq_true] at h ⊢
    obtain ⟨it, hit, hp⟩ := h
    refine ⟨it, ?_, hp⟩
    rw [eraseAllocAndUsers, List.mem_filter]
    refine ⟨hit, ?_⟩
    cases it with
    | alloc i => simp at hp
    | op k mems =>
      have hp2 : (isLoadedKind k && decide (id ∈ mems)) = true := hp
      obtain ⟨hk, _⟩ := Bool.and_eq_true _ _ ▸ hp2
      show decide (id0 ∉ mems) = true
      rw [decide_eq_true_eq]
      intro hmem0
      have hcontra : hasLoadUser b id0 = true := by
        rw [hasLoadUser, List.any_eq_true]
        exact ⟨.op k mems, hit, by simp [hk, hmem0]⟩
      rw [hcontra] at h0
      cases h0
  cases hbe : hasLoadUser b id with
  | true => exact hback hbe
  | false =>
    cases hee : hasLoadUser (eraseAllocAndUsers b id0) id with
    | false => rfl
    | true =>
      rw [hforward hee] at hbe
      cases hbe

theorem alloc_mem_erase (b : List BodyItem) (id0 id : Nat) :
    BodyItem.alloc id ∈ eraseAllocAndUsers b id0 ↔
      BodyItem.alloc id ∈ b ∧ id ≠ id0 := by
  rw [eraseAllocAndUsers, List.mem_filter]
  simp

theorem uses_erased (b : List BodyItem) (id0 : Nat) :
    ∀ it ∈ eraseAllocAndUsers b id0, usesId id0 it = false := by
  intro it hit
  rw [eraseAllocAndUsers, List.mem_filter] at hit
  obtain ⟨_, hcond⟩ := hit
  cases it with
  | alloc i => rfl
  | op k mems =>
    have hnotin : id0 ∉ mems := of_decide_eq_true hcond
    show decide (id0 ∈ mems) = false
    simpa using hnotin

theorem dceFold_spec (forig : List BodyItem) :
    ∀ (ids : List Nat) (b : List BodyItem),
      (∀ it ∈ b, it ∈ forig) →
      (∀ id, hasLoadUser b id = hasLoadUser forig id) →
      (∀ it ∈ ids.foldl dceStep b, it ∈ b) ∧
      (∀ id, hasLoadUser (ids.foldl dceStep b) id = hasLoadUser forig id) ∧
      (∀ id, BodyItem.alloc id ∈ ids.foldl dceStep b ↔
        (BodyItem.alloc id ∈ b ∧
          (id ∈ ids → hasLoadUser forig id = true))) ∧
      (∀ id ∈ ids, hasLoadUser forig id = false →
        ∀ it ∈ ids.foldl dceStep b, usesId id it = false) := by
  intro ids
  induction ids with
  | nil =>
    intro b hsub hload
    refine ⟨fun it hit => hit, hload, ?_, ?_⟩
    · intro id
      simp
    · intro id hid
      cases hid
  | cons id0 ids ih =>
    intro b hsub hload
    rw [List.foldl_cons]
    by_cases hl0 : hasLoadUser b id0 = true
    · have hstep : dceStep b id0 = b := by rw [dceStep, if_pos hl0]
      rw [hstep]
      obtain ⟨ihsub, ihload, ihalloc, ihuses⟩ := ih b hsub hload
      refine ⟨ihsub, ihload, ?_, ?_⟩
      · intro id
        rw [ihalloc id]
        by_cases hid : id = id0
        · subst hid
          have : hasLoadUser forig id = true := by rw [← hload]; exact hl0
          simp [this]
        · constructor
          · rintro ⟨hmem, himp⟩
            exact ⟨hmem, fun hin => himp (by
              rcases List.mem_cons.mp hin with hc | hc
              · exact absurd hc hid
              · exact hc)⟩
          · rintro ⟨hmem, himp⟩
            exact ⟨hmem, fun hin => himp (by simp [hin])⟩
      · intro id hid hdead
        rcases List.mem_cons.mp hid with hc | hc
        · subst hc
          have : hasLoadUser forig id = true := by rw [← hload]; exact hl0
          rw [this] at hdead
          cases hdead
        · exact ihuses id hc hdead
    · have hl0f : hasLoadUser b id0 = false := by
        simpa using hl0
      have hstep : dceStep b id0 = eraseAllocAndUsers b id0 := by
        rw [dceStep, if_neg (by simp [hl0f])]
      rw [hstep]
      have hsub2 : ∀ it ∈ eraseAllocAndUsers b id0, it ∈ forig :=
        fun it hit => hsub it (eraseAllocAndUsers_subset b id0 it hit)
      have hload2 : ∀ id, hasLoadUser (eraseAllocAndUsers b id0) id =
          hasLoadUser forig id := by
        intro id
        rw [hasLoadUser_erase b id0 hl0f id, hload id]
      obtain ⟨ihsub, ihload, ihalloc, ihuses⟩ :=
        ih (eraseAllocAndUsers b id0) hsub2 hload2
      refine ⟨?_, ihload, ?_, ?_⟩
      · intro it hit
        exact eraseAllocAndUsers_subset b id0 it (ihsub it hit)
      · intro id
        rw [ihalloc id, alloc_mem_erase b id0 id]
        by_cases hid : id = id0
        · subst hid
          have hdead : hasLoadUser forig id = false := by
            rw [← hload]; exact hl0f
          constructor
          · rintro ⟨⟨_, hne⟩, _⟩
            exact absurd rfl hne
          · rintro ⟨hmem, himp⟩
            have := himp (by simp)
            rw [this] at hdead
            cases hdead
        · constructor
          · rintro ⟨⟨hmem, _⟩, himp⟩
            exact ⟨hmem, fun hin => himp (by
              rcases List.mem_cons.mp hin with hc | hc
              · exact absurd hc hid
              · exact hc)⟩
          · rintro ⟨hmem, himp⟩
            exact ⟨⟨hmem, hid⟩, fun hin => himp (by simp [hin])⟩
      · intro id hid hdead
        rcases List.mem_cons.mp hid with hc | hc
        · subst hc
          intro it hit
          exact uses_erased b id it (ihsub it hit)
        · exact ihuses id hc hdead

theorem alloc_mem_allocIds (body : List BodyItem) (id : Nat)
    (h : BodyItem.alloc id ∈ body) : id ∈ allocIds body := by
  rw [allocIds, List.mem_filterMap]
  exact ⟨.alloc id, h, rfl⟩

/-- Claim C8: the dead-memory-cell pass removes exactly those function-local
allocations whose result value has no user that is a load (`memref.load` or
`affine.load`), a return, or a call — erasing each such allocation together
with all of its remaining uses — and it never removes function arguments or
global memrefs (which have no allocation in the body and are not
candidates); every allocation with at least one load/return/call user stays
in place. -/
theorem memref_dce_exact (f : MFunc) :
    (removeNeverLoadedMemRef f).args = f.args ∧
    (∀ it ∈ (removeNeverLoadedMemRef f).body, it ∈ f.body) ∧
    (∀ id, BodyItem.alloc id ∈ f.body →
      (BodyItem.alloc id ∈ (removeNeverLoadedMemRef f).body ↔
        hasLoadUser f.body id = true)) ∧
    (∀ id, BodyItem.alloc id ∈ f.body → hasLoadUser f.body id = false →
      ∀ it ∈ (removeNeverLoadedMemRef f).body, usesId id it = false) := by
  obtain ⟨hsub, hload, halloc, huses⟩ :=
    dceFold_spec f.body ((allocIds f.body).reverse) f.body
      (fun it hit => hit) (fun id => rfl)
  refine ⟨rfl, hsub, ?_, ?_⟩
  · intro id hid
    rw [show (removeNeverLoadedMemRef f).body =
      ((allocIds f.body).reverse).foldl dceStep f.body from rfl]
    rw [halloc id]
    have hmem : id ∈ (allocIds f.body).reverse :=
      List.mem_reverse.mpr (alloc_mem_allocIds f.body id hid)
    constructor
    · rintro ⟨_, himp⟩
      exact himp hmem
    · intro hl
      exact ⟨hid, fun _ => hl⟩
  · intro id hid hdead
    have hmem : id ∈ (allocIds f.body).reverse :=
      List.mem_reverse.mpr (alloc_mem_allocIds f.body id hid)
    exact huses id hmem hdead

/-- Witness for claim C8: a body with a stored-only allocation 1 (removed
together with its store) and a loaded allocation 2 (kept). -/
theorem memref_dce_exact_witness :
    (removeNeverLoadedMemRef
      ⟨[5], [.alloc 1, .alloc 2, .op .store [1], .op .affLoad [2]]⟩).args =
      (⟨[5], [.alloc 1, .alloc 2, .op .store [1], .op .affLoad [2]]⟩ : MFunc).args ∧
    BodyItem.alloc 2 ∈ (removeNeverLoadedMemRef
      ⟨[5], [.alloc 1, .alloc 2, .op .store [1], .op .affLoad [2]]⟩).body ∧
    BodyItem.alloc 1 ∉ (removeNeverLoadedMemRef
      ⟨[5], [.alloc 1, .alloc 2, .op .store [1], .op .affLoad [2]]⟩).body := by
  have h := memref_dce_exact
    ⟨[5], [.alloc 1, .alloc 2, .op .store [1], .op .affLoad [2]]⟩
  refine ⟨h.1, ?_, ?_⟩
  · exact (h.2.2.1 2 (by decide)).mpr (by decide)
  · intro hc
    have := (h.2.2.1 1 (by decide)).mp hc
    exact absurd this (by decide)

end HCL
